import Mathlib

/-!
Verification of the logos runtime core (`src/logos/src/source.rs`,
`src/logos/src/lib.rs`) against its specification.

Sources are byte buffers, embedded as `List Nat` (each entry a byte value);
a `&str` source is the UTF-8 byte buffer of the string. The two `Source`
implementations (`&str` and `&[u8]`) are embedded in the namespaces
`StrSource` and `ByteSource`, mirroring the Rust code line by line.
The generated scanning routine and the `Lexer` object are not part of the
staged files, so they are modelled from the specification (§4.5, §4.6) in
the `Scan` section below.
-/

namespace Logos

/-! ### Chunk (`source.rs` lines 211-244)

A chunk type is either `u8` (`impl Chunk for u8`, SIZE = 1) or a byte-array
reference `&[u8; n]` (`impl_array!`). `provided` records for which chunk
types the source code supplies an implementation: `u8`, and arrays of
length 1 through 16. -/

inductive ChunkKind where
  | u8 : ChunkKind
  | array : Nat → ChunkKind

/-- `Chunk::SIZE`: 1 for `u8`, `n` for `&[u8; n]`. -/
def ChunkKind.SIZE : ChunkKind → Nat
  | .u8 => 1
  | .array n => n

/-- The chunk implementations the source provides: `u8` and
`&[u8; 1]` .. `&[u8; 16]` (the `impl_array!(1, ..., 16)` invocation). -/
def ChunkKind.provided : ChunkKind → Bool
  | .u8 => true
  | .array n => decide (1 ≤ n) && decide (n ≤ 16)

/-- The carrier of each chunk type: a `u8` chunk is one byte, an array
chunk is its list of bytes. -/
def ChunkKind.Value : ChunkKind → Type
  | .u8 => Nat
  | .array _ => List Nat

/-- `Chunk::from_ptr`: reading `SIZE` bytes starting at the head of `l`
(the bytes the raw pointer points at). For `u8` this is `*ptr`; for
`&[u8; n]` it is the `n`-byte block. -/
def ChunkKind.fromBytes : (k : ChunkKind) → List Nat → k.Value
  | .u8, l => l.headD 0
  | .array n, l => l.take n

/-- The bytes underlying a chunk value. -/
def ChunkKind.toBytes : (k : ChunkKind) → k.Value → List Nat
  | .u8, b => [b]
  | .array _, l => l

/-! ### `impl Source for &str` (`source.rs` lines 124-169) -/

namespace StrSource

/-- `<&str as Source>::read` (lines 133-142): the guard is literally
`offset + (Chunk::SIZE - 1) < len`; on success `from_ptr` reads `SIZE`
bytes starting at `offset`. -/
def read (s : List Nat) (offset : Nat) (k : ChunkKind) : Option k.Value :=
  if offset + (k.SIZE - 1) < s.length then some (k.fromBytes (s.drop offset)) else none

/-- `str::is_char_boundary` as the Rust standard library defines it:
true at 0; at an in-bounds index, true iff the byte there is not a UTF-8
continuation byte (`b < 0x80 || b >= 0xC0`); beyond that, true only at
`len` exactly. -/
def is_char_boundary (s : List Nat) (index : Nat) : Bool :=
  if index = 0 then true
  else
    match s.get? index with
    | none => decide (index = s.length)
    | some b => decide (b < 128) || decide (192 ≤ b)

/-- `<&str as Source>::slice` (lines 145-147) is `str::get(range)`, which
succeeds iff `a ≤ b` and both ends are char boundaries (a boundary is
necessarily `≤ len`). -/
def slice (s : List Nat) (a b : Nat) : Option (List Nat) :=
  if a ≤ b ∧ is_char_boundary s a ∧ is_char_boundary s b then
    some ((s.drop a).take (b - a))
  else none

/-- `<&str as Source>::slice_unchecked` (lines 150-159): `get_unchecked`,
whose defined behaviour (under the precondition `a ≤ b ≤ len`) is the
sub-buffer over `[a, b)`. -/
def slice_unchecked (s : List Nat) (a b : Nat) : List Nat :=
  (s.drop a).take (b - a)

/-- `<&str as Source>::find_boundary` (lines 162-168): the loop
`while !is_char_boundary(index) { index += 1 }`. `fuel` counts loop
iterations; `none` means the loop has not returned within `fuel` steps,
so divergence is `∀ fuel, ... = none`. -/
def find_boundary (fuel : Nat) (s : List Nat) (index : Nat) : Option Nat :=
  match fuel with
  | 0 => none
  | f + 1 =>
    if is_char_boundary s index then some index else find_boundary f s (index + 1)

end StrSource

/-! ### `impl Source for &[u8]` (`source.rs` lines 171-209) -/

namespace ByteSource

/-- `<&[u8] as Source>::read` (lines 180-189): same body as the `&str`
implementation. -/
def read (s : List Nat) (offset : Nat) (k : ChunkKind) : Option k.Value :=
  if offset + (k.SIZE - 1) < s.length then some (k.fromBytes (s.drop offset)) else none

/-- `<&[u8] as Source>::slice` (lines 192-194) is `slice::get(range)`:
succeeds iff `a ≤ b ≤ len`. -/
def slice (s : List Nat) (a b : Nat) : Option (List Nat) :=
  if a ≤ b ∧ b ≤ s.length then some ((s.drop a).take (b - a)) else none

/-- `<&[u8] as Source>::slice_unchecked` (lines 197-206). -/
def slice_unchecked (s : List Nat) (a b : Nat) : List Nat :=
  (s.drop a).take (b - a)

/-- `Source::find_boundary` default implementation (lines 104-106), the
one `&[u8]` inherits: returns the index unchanged. -/
def find_boundary (_s : List Nat) (index : Nat) : Nat := index

end ByteSource

/-! ### The scanning routine and the lexer, modelled from the specification

The generated scan routine (`Logos::lex`) and the `Lexer` object live in
`logos-derive` and `src/lexer.rs`, which are not among the staged files;
everything in this section is modelled from the specification (§3, §4.5,
§4.6). -/

/-- Modelled from the spec: the compile-time pattern shape (§3 "Pattern",
§4.6) — literal bytes, character classes/ranges, concatenation,
alternation, unbounded repetitions `*` and `+`, and optional groups.
`fail` is the empty language (used only by the matcher's derivatives). -/
inductive Pattern where
  | fail : Pattern
  | empty : Pattern
  | byte : Nat → Pattern
  | cls : (Nat → Bool) → Pattern
  | seq : Pattern → Pattern → Pattern
  | alt : Pattern → Pattern → Pattern
  | star : Pattern → Pattern
  | plus : Pattern → Pattern
  | opt : Pattern → Pattern

/-- Whether a pattern matches the empty word. -/
def Pattern.nullable : Pattern → Bool
  | .fail => false
  | .empty => true
  | .byte _ => false
  | .cls _ => false
  | .seq p q => p.nullable && q.nullable
  | .alt p q => p.nullable || q.nullable
  | .star _ => true
  | .plus p => p.nullable
  | .opt _ => true

/-- Brzozowski derivative of a pattern by one byte; the standard matching
semantics for the pattern language. -/
def Pattern.deriv : Pattern → Nat → Pattern
  | .fail, _ => .fail
  | .empty, _ => .fail
  | .byte b, c => if b = c then .empty else .fail
  | .cls f, c => if f c then .empty else .fail
  | .seq p q, c =>
    if p.nullable then .alt (.seq (p.deriv c) q) (q.deriv c) else .seq (p.deriv c) q
  | .alt p q, c => .alt (p.deriv c) (q.deriv c)
  | .star p, c => .seq (p.deriv c) (.star p)
  | .plus p, c => .seq (p.deriv c) (.star p)
  | .opt p, c => p.deriv c

/-- Modelled from the spec: the priority score (§4.6) — over the shortest
accepting word, +2 per literal byte, +1 per class or range; `*` and
optional groups contribute nothing, `+` contributes one occurrence of its
body, alternation takes the minimum over its alternatives. -/
def Pattern.priority : Pattern → Nat
  | .fail => 0
  | .empty => 0
  | .byte _ => 2
  | .cls _ => 1
  | .seq p q => p.priority + q.priority
  | .alt p q => min p.priority q.priority
  | .star _ => 0
  | .plus p => p.priority
  | .opt _ => 0

/-- All lengths `k` such that the pattern matches `input.take k`, collected
by walking the input once with derivatives; `k₀` is the number of bytes
already consumed. -/
def matchLensAux : Pattern → List Nat → Nat → List Nat
  | p, [], k₀ => if p.nullable then [k₀] else []
  | p, b :: rest, k₀ =>
    (if p.nullable then [k₀] else []) ++ matchLensAux (p.deriv b) rest (k₀ + 1)

/-- The match lengths of a pattern against a prefix of `input`. -/
def matchLens (p : Pattern) (input : List Nat) : List Nat := matchLensAux p input 0

/-- The greatest entry `≥ 1` of a list of match lengths, if any: a token
must consume at least one byte (§4.6 "No-match"). -/
def maxLen : List Nat → Option Nat
  | [] => none
  | n :: rest =>
    match maxLen rest with
    | none => if 1 ≤ n then some n else none
    | some m => if m ≤ n then some n else some m

/-- Modelled from the spec: a pattern set `P = {(pattern_i, variant_i)}`
together with the two sentinel variants `END` and `ERROR` (§3, §4.4). -/
structure Grammar where
  pats : List (Pattern × Nat)
  endTok : Nat
  errTok : Nat

/-- The candidates at position `pos`: for every pattern that matches at
least one byte, its greatest match length, its priority and its variant. -/
def candidates (g : Grammar) (src : List Nat) (pos : Nat) : List (Nat × Nat × Nat) :=
  g.pats.filterMap fun pv =>
    (maxLen (matchLens pv.1 (src.drop pos))).map fun m => (m, pv.1.priority, pv.2)

/-- `better c d`: candidate `d` beats candidate `c` — strictly longer
match, or equal length and strictly higher priority (§4.6). -/
def better (c d : Nat × Nat × Nat) : Bool :=
  decide (c.1 < d.1) || (decide (c.1 = d.1) && decide (c.2.1 < d.2.1))

/-- Modelled from the spec: the best-so-far selection (§4.6
"Accept-state bookkeeping") — the candidate with the greatest match
length, ties broken by the higher priority. -/
def chooseBest : List (Nat × Nat × Nat) → Option (Nat × Nat × Nat)
  | [] => none
  | c :: rest =>
    match chooseBest rest with
    | none => some c
    | some d => if better c d then some d else some c

/-- The observable lexer state (§3 "Lexer state object"): cursor, current
token variant, current span. The source and the extras are carried
separately (the source is immutable; no callbacks are modelled). -/
structure LexState where
  pos : Nat
  token : Nat
  span_start : Nat
  span_end : Nat
deriving DecidableEq

/-- The error-path advance (§4.5): one byte for binary sources, up to the
next code-point boundary for text sources. The fuel `len + 1` always
suffices since the call starts at `pos + 1 ≤ len`; the fallback arm is
unreachable there. -/
def errStop (binary : Bool) (src : List Nat) (pos : Nat) : Nat :=
  if binary then pos + 1
  else
    match StrSource.find_boundary (src.length + 1) src (pos + 1) with
    | some j => j
    | none => pos + 1

/-- Modelled from the spec: one invocation of the generated `lex` routine
(§4.6): at end of input produce `END` with the empty span at `len`;
otherwise commit to the best candidate, or take the error path when no
pattern accepts a byte. -/
def lexStep (g : Grammar) (binary : Bool) (src : List Nat) (s : LexState) : LexState :=
  if s.pos = src.length then
    ⟨src.length, g.endTok, src.length, src.length⟩
  else
    match chooseBest (candidates g src s.pos) with
    | some c => ⟨s.pos + c.1, c.2.2, s.pos, s.pos + c.1⟩
    | none =>
      let stop := errStop binary src s.pos
      ⟨stop, g.errTok, s.pos, stop⟩

/-- Run the lexer until `END`, collecting `(token, span_start, span_end)`
triples; `fuel` bounds the number of `advance` calls (the cursor strictly
advances, so `len + 1` steps always reach `END`). -/
def lexRun : Nat → Grammar → Bool → List Nat → LexState → List (Nat × Nat × Nat)
  | 0, _, _, _, _ => []
  | fuel + 1, g, binary, src, s =>
    let s' := lexStep g binary src s
    if s'.token = g.endTok then []
    else (s'.token, s'.span_start, s'.span_end) :: lexRun fuel g binary src s'

/-- Construction (§4.5) starts at `pos = 0` (with the best-so-far slot at
the error sentinel) and immediately lexes; `lexAll` is the full token
stream. -/
def lexAll (g : Grammar) (binary : Bool) (src : List Nat) : List (Nat × Nat × Nat) :=
  lexRun (src.length + 1) g binary src ⟨0, g.errTok, 0, 0⟩

/-! ### Concrete grammars from the staged tests (`src/tests/tests/edgecase.rs`) -/

/-- A literal pattern: the byte sequence of a `#[token = "..."]`. -/
def litP : List Nat → Pattern
  | [] => .empty
  | b :: rest => .seq (.byte b) (litP rest)

/-- The bytes a byte may NOT be to belong to the `crunch` identifier class
`[^ \t\n\r"'!@#$%^&*()-+=,.<>/?;:[]\x7b\x7d\\|`~]+` (edgecase.rs line 17);
`)-+` is the range 0x29-0x2B. -/
def crunchExcluded : List Nat :=
  [32, 9, 10, 13, 34, 39, 33, 64, 35, 36, 37, 94, 38, 42, 40, 41, 43,
   61, 44, 46, 60, 62, 47, 63, 59, 58, 91, 93, 123, 125, 92, 124, 96, 126]

/-- The `crunch` identifier byte class. -/
def identCls (b : Nat) : Bool := !(crunchExcluded.contains b)

/-- The `crunch` grammar (edgecase.rs lines 7-19): End = 0, Error = 1,
`else` = 2, `exposed` = 3, identifier class = 4. -/
def crunchGrammar : Grammar where
  pats :=
    [(litP [101, 108, 115, 101], 2),
     (litP [101, 120, 112, 111, 115, 101, 100], 3),
     (.plus (.cls identCls), 4)]
  endTok := 0
  errTok := 1

/-- The bytes of `"exposed_function"`. -/
def exposedFunctionBytes : List Nat :=
  [101, 120, 112, 111, 115, 101, 100, 95, 102, 117, 110, 99, 116, 105, 111, 110]

/-- The `=`-operators fragment of the `benches` grammar (edgecase.rs lines
127-134): End = 0, Error = 1, `===` = 2, `==` = 3, `=` = 4. -/
def eqGrammar : Grammar where
  pats := [(litP [61, 61, 61], 2), (litP [61, 61], 3), (litP [61], 4)]
  endTok := 0
  errTok := 1

/-- The ASCII alphabetic class `[a-zA-Z]`. -/
def alphaCls (b : Nat) : Bool :=
  (decide (65 ≤ b) && decide (b ≤ 90)) || (decide (97 ≤ b) && decide (b ≤ 122))

/-! ### Helper lemmas -/

/-- Every provided chunk type has a positive size. -/
theorem ChunkKind.provided_one_le {k : ChunkKind} (hk : k.provided = true) :
    1 ≤ k.SIZE := by
  cases k with
  | u8 => exact le_refl 1
  | array n =>
    simp only [ChunkKind.provided, Bool.and_eq_true, decide_eq_true_eq] at hk
    exact hk.1

/-- The bytes of the chunk `from_ptr` reads at `off` are the source bytes
over `[off, off + SIZE)`. -/
theorem fromBytes_toBytes_spec (s : List Nat) (off : Nat) (k : ChunkKind)
    (h1 : 1 ≤ k.SIZE) (hle : off + k.SIZE ≤ s.length) :
    (k.toBytes (k.fromBytes (s.drop off))).length = k.SIZE ∧
    ∀ j, j < k.SIZE → (k.toBytes (k.fromBytes (s.drop off)))[j]? = s[off + j]? := by
  cases k with
  | u8 =>
    refine ⟨rfl, ?_⟩
    intro j hj
    have hj0 : j = 0 := by simp only [ChunkKind.SIZE] at hj; omega
    subst hj0
    have hne : s.drop off ≠ [] := by
      intro hnil
      have := congrArg List.length hnil
      simp only [List.length_drop, List.length_nil] at this
      simp only [ChunkKind.SIZE] at hle
      omega
    have hhd : some ((s.drop off).headD 0) = (s.drop off).head? := by
      cases hd : s.drop off with
      | nil => exact absurd hd hne
      | cons a t => rfl
    calc (ChunkKind.u8.toBytes (ChunkKind.u8.fromBytes (s.drop off)))[0]?
        = some ((s.drop off).headD 0) := rfl
      _ = (s.drop off).head? := hhd
      _ = (s.drop off)[0]? := List.head?_eq_getElem? _
      _ = s[off + 0]? := List.getElem?_drop s off 0
  | array n =>
    simp only [ChunkKind.SIZE] at h1 hle
    have hdl : n ≤ (s.drop off).length := by
      simp only [List.length_drop]
      omega
    refine ⟨?_, ?_⟩
    · simpa only [ChunkKind.toBytes, ChunkKind.fromBytes] using
        List.length_take_of_le hdl
    · intro j hj
      simp only [ChunkKind.SIZE] at hj
      calc ((ChunkKind.array n).toBytes ((ChunkKind.array n).fromBytes (s.drop off)))[j]?
          = ((s.drop off).take n)[j]? := rfl
        _ = (s.drop off)[j]? := List.getElem?_take_of_lt hj
        _ = s[off + j]? := List.getElem?_drop s off j

/-! ### C1: chunked reads -/

/-- **C1.** For both source instantiations and every provided chunk type of
size `N`, `read(off)` returns a chunk exactly when `off + N ≤ len`; the
chunk's bytes are the `N` source bytes starting at `off` (the operation is
a total function, so it never panics). -/
theorem read_chunk_spec (s : List Nat) (off : Nat) (k : ChunkKind)
    (hk : k.provided = true) :
    StrSource.read s off k = ByteSource.read s off k ∧
    ((∃ c, StrSource.read s off k = some c) ↔ off + k.SIZE ≤ s.length) ∧
    (∀ c, StrSource.read s off k = some c →
      (k.toBytes c).length = k.SIZE ∧
      ∀ j, j < k.SIZE → (k.toBytes c)[j]? = s[off + j]?) := by
  have h1 : 1 ≤ k.SIZE := ChunkKind.provided_one_le hk
  refine ⟨rfl, ?_, ?_⟩
  · unfold StrSource.read
    by_cases hg : off + (k.SIZE - 1) < s.length
    · simp only [if_pos hg, Option.some.injEq, exists_eq', true_iff]
      omega
    · rw [if_neg hg]
      constructor
      · rintro ⟨c, hc⟩
        exact Option.noConfusion hc
      · intro h
        exact absurd h (by omega)
  · intro c hc
    unfold StrSource.read at hc
    by_cases hg : off + (k.SIZE - 1) < s.length
    · rw [if_pos hg, Option.some.injEq] at hc
      subst hc
      exact fromBytes_toBytes_spec s off k h1 (by omega)
    · rw [if_neg hg] at hc
      exact absurd hc (by simp)

/-- **C1 witness** at source `[7, 8, 9]`, offset 1, chunk type `u8`. -/
theorem read_chunk_spec_witness :
    StrSource.read [7, 8, 9] 1 ChunkKind.u8 = ByteSource.read [7, 8, 9] 1 ChunkKind.u8 ∧
    ((∃ c, StrSource.read [7, 8, 9] 1 ChunkKind.u8 = some c) ↔
      1 + ChunkKind.u8.SIZE ≤ [7, 8, 9].length) ∧
    (∀ c, StrSource.read [7, 8, 9] 1 ChunkKind.u8 = some c →
      (ChunkKind.u8.toBytes c).length = ChunkKind.u8.SIZE ∧
      ∀ j, j < ChunkKind.u8.SIZE →
        (ChunkKind.u8.toBytes c)[j]? = [7, 8, 9][1 + j]?) :=
  read_chunk_spec [7, 8, 9] 1 ChunkKind.u8 rfl

/-- A match length `≥ 1` is dominated by `maxLen`. -/
theorem maxLen_ge {l : List Nat} {L : Nat} (hL : L ∈ l) (h1 : 1 ≤ L) :
    ∃ m, maxLen l = some m ∧ L ≤ m := by
  induction l with
  | nil => cases hL
  | cons n rest ih =>
    rcases List.mem_cons.mp hL with h | h
    · subst h
      cases hrest : maxLen rest with
      | none => exact ⟨L, by simp [maxLen, hrest, h1], le_refl L⟩
      | some m =>
        by_cases hm : m ≤ L
        · exact ⟨L, by simp [maxLen, hrest, hm], le_refl L⟩
        · exact ⟨m, by simp [maxLen, hrest, hm], by omega⟩
    · obtain ⟨m, hm, hLm⟩ := ih h
      by_cases hmn : m ≤ n
      · exact ⟨n, by simp [maxLen, hm, hmn], by omega⟩
      · exact ⟨m, by simp [maxLen, hm, hmn], hLm⟩

/-- The selected candidate is one of the candidates. -/
theorem chooseBest_mem {l : List (Nat × Nat × Nat)} {r : Nat × Nat × Nat}
    (h : chooseBest l = some r) : r ∈ l := by
  induction l generalizing r with
  | nil => cases h
  | cons c rest ih =>
    simp only [chooseBest] at h
    cases hrest : chooseBest rest with
    | none =>
      rw [hrest] at h
      dsimp only at h
      injection h with h
      subst h
      exact List.mem_cons_self c rest
    | some d =>
      rw [hrest] at h
      dsimp only at h
      by_cases hb : better c d = true
      · rw [if_pos hb] at h
        injection h with h
        subst h
        exact List.mem_cons_of_mem c (ih hrest)
      · rw [if_neg hb] at h
        injection h with h
        subst h
        exact List.mem_cons_self c rest

/-- The selected candidate has the greatest match length, and among the
candidates of that length the greatest priority. -/
theorem chooseBest_le {l : List (Nat × Nat × Nat)} {r : Nat × Nat × Nat}
    (h : chooseBest l = some r) :
    ∀ c ∈ l, c.1 ≤ r.1 ∧ (c.1 = r.1 → c.2.1 ≤ r.2.1) := by
  induction l generalizing r with
  | nil => cases h
  | cons a rest ih =>
    intro c hc
    simp only [chooseBest] at h
    cases hrest : chooseBest rest with
    | none =>
      rw [hrest] at h
      dsimp only at h
      injection h with h
      subst h
      have : rest = [] := by
        cases rest with
        | nil => rfl
        | cons b t =>
          simp only [chooseBest] at hrest
          cases ht : chooseBest t with
          | none => rw [ht] at hrest; dsimp only at hrest; cases hrest
          | some e =>
            rw [ht] at hrest
            dsimp only at hrest
            by_cases hb : better b e = true
            · rw [if_pos hb] at hrest; cases hrest
            · rw [if_neg hb] at hrest; cases hrest
      subst this
      have hca : c = a := by
        rcases List.mem_cons.mp hc with h' | h'
        · exact h'
        · cases h'
      subst hca
      exact ⟨le_refl _, fun _ => le_refl _⟩
    | some d =>
      rw [hrest] at h
      dsimp only at h
      have hbt : better a d = true ↔ (a.1 < d.1 ∨ (a.1 = d.1 ∧ a.2.1 < d.2.1)) := by
        simp [better]
      by_cases hb : better a d = true
      · rw [if_pos hb] at h
        injection h with h
        subst h
        rcases List.mem_cons.mp hc with h' | h'
        · subst h'
          rcases hbt.mp hb with h'' | ⟨h1, h2⟩
          · exact ⟨by omega, fun he => by omega⟩
          · exact ⟨by omega, fun _ => by omega⟩
        · exact ih hrest c h'
      · rw [if_neg hb] at h
        injection h with h
        subst h
        have hnb : ¬(a.1 < d.1 ∨ (a.1 = d.1 ∧ a.2.1 < d.2.1)) := fun hx =>
          hb (hbt.mpr hx)
        push_neg at hnb
        obtain ⟨hd1, hd2⟩ := hnb
        rcases List.mem_cons.mp hc with h' | h'
        · subst h'
          exact ⟨le_refl _, fun _ => le_refl _⟩
        · obtain ⟨hc1, hc2⟩ := ih hrest c h'
          refine ⟨by omega, ?_⟩
          intro hca
          have hda : a.1 = d.1 := by omega
          have h4 : d.2.1 ≤ a.2.1 := hd2 hda
          have h5 : c.2.1 ≤ d.2.1 := hc2 (by omega)
          omega

/-- A pattern of the grammar whose `maxLen` is `some m` contributes the
candidate `(m, priority, variant)`. -/
theorem mem_candidates_of {g : Grammar} {src : List Nat} {pos : Nat}
    {p : Pattern} {v m : Nat} (hpv : (p, v) ∈ g.pats)
    (hm : maxLen (matchLens p (src.drop pos)) = some m) :
    (m, p.priority, v) ∈ candidates g src pos := by
  unfold candidates
  refine List.mem_filterMap.mpr ⟨(p, v), hpv, ?_⟩
  simp [hm]

/-- Every candidate's variant comes from the pattern set. -/
theorem candidates_variant {g : Grammar} {src : List Nat} {pos : Nat}
    {c : Nat × Nat × Nat} (hc : c ∈ candidates g src pos) :
    ∃ pv ∈ g.pats, pv.2 = c.2.2 := by
  unfold candidates at hc
  obtain ⟨pv, hpv, hf⟩ := List.mem_filterMap.mp hc
  cases hmx : maxLen (matchLens pv.1 (src.drop pos)) with
  | none => rw [hmx] at hf; cases hf
  | some m =>
    rw [hmx] at hf
    simp only [Option.map_some', Option.some.injEq] at hf
    exact ⟨pv, hpv, by rw [← hf]⟩

/-- The length of the source is always a character boundary. -/
theorem is_char_boundary_length (s : List Nat) :
    StrSource.is_char_boundary s s.length = true := by
  unfold StrSource.is_char_boundary
  by_cases h0 : s.length = 0
  · rw [if_pos h0]
  · rw [if_neg h0]
    have hnone : s.get? s.length = none := by
      rw [List.get?_eq_none]
    rw [hnone]
    exact decide_eq_true rfl

/-- A character boundary is an index `≤ len`. -/
theorem is_char_boundary_le {s : List Nat} {i : Nat}
    (h : StrSource.is_char_boundary s i = true) : i ≤ s.length := by
  unfold StrSource.is_char_boundary at h
  by_cases h0 : i = 0
  · omega
  · rw [if_neg h0] at h
    cases hg : s.get? i with
    | none =>
      rw [hg] at h
      have := of_decide_eq_true h
      omega
    | some b =>
      obtain ⟨hlt, _⟩ := List.get?_eq_some.mp hg
      omega

/-- With fuel exceeding `len - i`, the `find_boundary` loop started at
`i ≤ len` returns the smallest boundary `≥ i` (which is `≤ len`, since
`len` itself is a boundary). -/
theorem find_boundary_reaches (s : List Nat) :
    ∀ (fuel i : Nat), i ≤ s.length → s.length - i < fuel →
      ∃ j, StrSource.find_boundary fuel s i = some j ∧ i ≤ j ∧ j ≤ s.length ∧
        StrSource.is_char_boundary s j = true ∧
        ∀ j', i ≤ j' → j' < j → StrSource.is_char_boundary s j' = false := by
  intro fuel
  induction fuel with
  | zero => intro i hi hf; omega
  | succ f ih =>
    intro i hi hf
    by_cases hb : StrSource.is_char_boundary s i = true
    · refine ⟨i, ?_, le_refl i, hi, hb, fun j' h1 h2 => by omega⟩
      unfold StrSource.find_boundary
      rw [if_pos hb]
    · have hbf : StrSource.is_char_boundary s i = false := by
        revert hb
        cases StrSource.is_char_boundary s i <;> simp
      have hilen : i ≠ s.length := fun he => hb (he ▸ is_char_boundary_length s)
      obtain ⟨j, h1, h2, h3, h4, h5⟩ := ih (i + 1) (by omega) (by omega)
      refine ⟨j, ?_, by omega, h3, h4, ?_⟩
      · unfold StrSource.find_boundary
        rw [if_neg hb]
        exact h1
      · intro j' hj1 hj2
        by_cases hji : j' = i
        · exact hji ▸ hbf
        · exact h5 j' (by omega) hj2

/-- Started beyond the length of the source, the loop never finds a
boundary: no amount of fuel makes it return. -/
theorem find_boundary_stuck (s : List Nat) :
    ∀ (fuel i : Nat), s.length < i → StrSource.find_boundary fuel s i = none := by
  intro fuel
  induction fuel with
  | zero => intro i _; rfl
  | succ f ih =>
    intro i hi
    have hb : StrSource.is_char_boundary s i = false := by
      unfold StrSource.is_char_boundary
      rw [if_neg (by omega : ¬ i = 0)]
      have hnone : s.get? i = none := List.get?_eq_none.mpr (by omega)
      rw [hnone]
      exact decide_eq_false (by omega)
    unfold StrSource.find_boundary
    rw [if_neg (by simp [hb])]
    exact ih (i + 1) (by omega)

/-- Content of a checked or unchecked sub-slice over `[a, b)`. -/
theorem take_drop_content (s : List Nat) (a b : Nat) (hab : a ≤ b)
    (hb : b ≤ s.length) :
    ((s.drop a).take (b - a)).length = b - a ∧
    ∀ j, j < b - a → ((s.drop a).take (b - a))[j]? = s[a + j]? := by
  constructor
  · rw [List.length_take_of_le]
    simp only [List.length_drop]
    omega
  · intro j hj
    rw [List.getElem?_take_of_lt hj, List.getElem?_drop]

/-- `<&str as Source>::slice` succeeds exactly on in-order ranges whose
two endpoints are character boundaries. -/
theorem str_slice_some_iff (s : List Nat) (a b : Nat) :
    (∃ out, StrSource.slice s a b = some out) ↔
      (a ≤ b ∧ b ≤ s.length ∧ StrSource.is_char_boundary s a = true ∧
        StrSource.is_char_boundary s b = true) := by
  unfold StrSource.slice
  by_cases hc : a ≤ b ∧ StrSource.is_char_boundary s a = true ∧
      StrSource.is_char_boundary s b = true
  · rw [if_pos hc]
    simp only [Option.some.injEq, exists_eq', true_iff]
    exact ⟨hc.1, is_char_boundary_le hc.2.2, hc.2.1, hc.2.2⟩
  · rw [if_neg hc]
    constructor
    · rintro ⟨out, hout⟩
      cases hout
    · rintro ⟨h1, _, h3, h4⟩
      exact absurd ⟨h1, h3, h4⟩ hc

/-! ### C2: longest match -/

/-- **C2.** (spec-modelled) The scan selects, among all patterns matching
at `pos`, the greatest match length: any match length `L ≥ 1` of any
pattern of the grammar is bounded by the chosen candidate's length.
Concretely, with literals `else`/`exposed` plus the identifier class,
`"exposed_function"` lexes as the single `Ident` token over bytes 0..16,
and with literals `===`/`==`/`=`, `"==="` lexes as the single `===` token
over bytes 0..3. -/
theorem longest_match_spec :
    (∀ (g : Grammar) (src : List Nat) (pos L v : Nat) (p : Pattern)
        (c : Nat × Nat × Nat),
      (p, v) ∈ g.pats → L ∈ matchLens p (src.drop pos) → 1 ≤ L →
      chooseBest (candidates g src pos) = some c → L ≤ c.1) ∧
    lexAll crunchGrammar false exposedFunctionBytes = [(4, 0, 16)] ∧
    lexAll eqGrammar false [61, 61, 61] = [(2, 0, 3)] := by
  refine ⟨?_, by decide, by decide⟩
  intro g src pos L v p c hpv hL h1 hch
  obtain ⟨m, hm, hLm⟩ := maxLen_ge hL h1
  have hmem := mem_candidates_of hpv hm
  have h2 : m ≤ c.1 := (chooseBest_le hch _ hmem).1
  omega

/-! ### C3: priority tie-break -/

/-- **C3.** (spec-modelled) When two candidates match the same length, the
selection never returns the one with the strictly lower priority; the
priority score gives `[a-zA-Z]+` priority 1, the literal `foobar`
priority 12 and `(foo|hello)(bar)?` priority 6. -/
theorem priority_tie_break_spec :
    (∀ (l : List (Nat × Nat × Nat)) (c₁ c₂ : Nat × Nat × Nat),
      c₁ ∈ l → c₂ ∈ l → c₁.1 = c₂.1 → c₂.2.1 < c₁.2.1 →
      chooseBest l ≠ some c₂) ∧
    Pattern.priority (.plus (.cls alphaCls)) = 1 ∧
    Pattern.priority (litP [102, 111, 111, 98, 97, 114]) = 12 ∧
    Pattern.priority
      (.seq (.alt (litP [102, 111, 111]) (litP [104, 101, 108, 108, 111]))
        (.opt (litP [98, 97, 114]))) = 6 := by
  refine ⟨?_, rfl, rfl, rfl⟩
  intro l c₁ c₂ h1 h2 hlen hprio hch
  obtain ⟨hle, himp⟩ := chooseBest_le hch c₁ h1
  have h3 : c₁.2.1 ≤ c₂.2.1 := himp hlen
  omega

/-! ### C8: advance is idempotent after END -/

/-- **C8.** (spec-modelled) For a grammar whose patterns do not use the
`END` sentinel as a variant, once an `advance` (a `lex` invocation) has
produced `token = END`, a further `advance` leaves the whole observable
state `(pos, token, span_start, span_end)` unchanged. -/
theorem advance_idempotent_after_end (g : Grammar) (binary : Bool)
    (src : List Nat) (s : LexState)
    (hvars : ∀ pv ∈ g.pats, pv.2 ≠ g.endTok)
    (herr : g.errTok ≠ g.endTok)
    (hend : (lexStep g binary src s).token = g.endTok) :
    lexStep g binary src (lexStep g binary src s) = lexStep g binary src s := by
  have hA : lexStep g binary src s =
      ⟨src.length, g.endTok, src.length, src.length⟩ := by
    unfold lexStep at hend ⊢
    by_cases hp : s.pos = src.length
    · rw [if_pos hp]
    · rw [if_neg hp] at hend ⊢
      cases hch : chooseBest (candidates g src s.pos) with
      | some c =>
        rw [hch] at hend
        dsimp only at hend
        obtain ⟨pv, hpv, hv⟩ := candidates_variant (chooseBest_mem hch)
        exact absurd (hv.trans hend) (hvars pv hpv)
      | none =>
        rw [hch] at hend
        dsimp only at hend
        exact absurd hend herr
  rw [hA]
  unfold lexStep
  rw [if_pos rfl]

/-- **C8 witness**: the `=`-operators grammar on the one-byte source `[61]`
in the state `⟨1, 0, 1, 1⟩` where `END` has been observed. -/
theorem advance_idempotent_after_end_witness :
    lexStep eqGrammar false [61] (lexStep eqGrammar false [61] ⟨1, 0, 1, 1⟩) =
      lexStep eqGrammar false [61] ⟨1, 0, 1, 1⟩ :=
  advance_idempotent_after_end eqGrammar false [61] ⟨1, 0, 1, 1⟩
    (by decide) (by decide) (by decide)

/-! ### C4: find_boundary -/

/-- **C4 counterexample**: on the one-byte text source `[97]` (`"a"`), at
index 2 — one past the length — the `find_boundary` loop never returns,
whatever the number of iterations, so it does not return the smallest
boundary `j ≥ i` for every index `i`. -/
theorem find_boundary_counterexample :
    ¬ ∃ fuel j, StrSource.find_boundary fuel ([97] : List Nat) 2 = some j := by
  rintro ⟨fuel, j, hj⟩
  rw [find_boundary_stuck [97] fuel 2 (by decide)] at hj
  cases hj

/-- **C4 (amended).** On a bytes source `find_boundary` returns the index
unchanged; on a text source, for every `i ≤ len`, the loop terminates
(fuel `len + 1 - i` suffices) and returns the smallest `j ≥ i` that is a
code-point boundary. For `i > len` on a text source the loop never
returns (see the counterexample). -/
theorem find_boundary_spec (s bs : List Nat) (i : Nat) (hi : i ≤ s.length) :
    ByteSource.find_boundary bs i = i ∧
    ∃ j, StrSource.find_boundary (s.length + 1 - i) s i = some j ∧
      i ≤ j ∧ StrSource.is_char_boundary s j = true ∧
      ∀ j', i ≤ j' → j' < j → StrSource.is_char_boundary s j' = false := by
  refine ⟨rfl, ?_⟩
  obtain ⟨j, h1, h2, _, h4, h5⟩ :=
    find_boundary_reaches s (s.length + 1 - i) i hi (by omega)
  exact ⟨j, h1, h2, h4, h5⟩

/-- **C4 witness** at the text source `[195, 169]` (`"é"`) with `i = 1`
(the boundary found is 2) and the bytes source `[5]` with `i = 1`. -/
theorem find_boundary_spec_witness :
    ByteSource.find_boundary [5] 1 = 1 ∧
    ∃ j, StrSource.find_boundary (([195, 169] : List Nat).length + 1 - 1) [195, 169] 1 = some j ∧
      1 ≤ j ∧ StrSource.is_char_boundary [195, 169] j = true ∧
      ∀ j', 1 ≤ j' → j' < j → StrSource.is_char_boundary [195, 169] j' = false :=
  find_boundary_spec [195, 169] [5] 1 (by decide)

/-! ### C10: find_boundary terminates within bounds -/

/-- **C10.** For the text source and every index `i ≤ len`, the
`find_boundary` loop terminates — fuel `len + 1 - i` already yields a
result `j` — and `i ≤ j ≤ len` with `j` a character boundary of the
source. -/
theorem find_boundary_terminates (s : List Nat) (i : Nat) (hi : i ≤ s.length) :
    ∃ j, StrSource.find_boundary (s.length + 1 - i) s i = some j ∧
      i ≤ j ∧ j ≤ s.length ∧ StrSource.is_char_boundary s j = true := by
  obtain ⟨j, h1, h2, h3, h4, _⟩ :=
    find_boundary_reaches s (s.length + 1 - i) i hi (by omega)
  exact ⟨j, h1, h2, h3, h4⟩

/-- **C10 witness** at the text source `[226, 130, 172]` (`"€"`) with
`i = 1`: the loop stops at `j = 3 = len`. -/
theorem find_boundary_terminates_witness :
    ∃ j, StrSource.find_boundary (([226, 130, 172] : List Nat).length + 1 - 1)
        [226, 130, 172] 1 = some j ∧
      1 ≤ j ∧ j ≤ ([226, 130, 172] : List Nat).length ∧
      StrSource.is_char_boundary [226, 130, 172] j = true :=
  find_boundary_terminates [226, 130, 172] 1 (by decide)

/-! ### C5: checked slicing -/

/-- **C5 counterexample**: on the text source `[195, 169]` (the two UTF-8
bytes of `"é"`), the in-bounds range `[0, 1)` satisfies
`0 ≤ a ≤ b ≤ len` yet `slice` yields `none`, so `slice` does not return a
sub-slice for every such range on every source. -/
theorem slice_counterexample :
    ¬ (∀ (s : List Nat) (a b : Nat), a ≤ b → b ≤ s.length →
        ∃ out, StrSource.slice s a b = some out) := by
  intro h
  obtain ⟨out, hout⟩ := h [195, 169] 0 1 (by omega) (by simp)
  have hn : StrSource.slice [195, 169] 0 1 = none := by decide
  rw [hn] at hout
  cases hout

/-- **C5 (amended).** `slice(a..b)` is a total function into an option —
it never panics. For the bytes source it returns a sub-slice exactly when
`a ≤ b ≤ len`; for the text source the endpoints must in addition lie on
character boundaries. In the successful case the result covers exactly
the source content over `[a, b)`. -/
theorem slice_spec (s : List Nat) (a b : Nat) :
    ((∃ out, ByteSource.slice s a b = some out) ↔ (a ≤ b ∧ b ≤ s.length)) ∧
    ((∃ out, StrSource.slice s a b = some out) ↔
      (a ≤ b ∧ b ≤ s.length ∧ StrSource.is_char_boundary s a = true ∧
        StrSource.is_char_boundary s b = true)) ∧
    (∀ out, ByteSource.slice s a b = some out ∨ StrSource.slice s a b = some out →
      out.length = b - a ∧ ∀ j, j < b - a → out[j]? = s[a + j]?) := by
  refine ⟨?_, str_slice_some_iff s a b, ?_⟩
  · unfold ByteSource.slice
    by_cases hc : a ≤ b ∧ b ≤ s.length
    · rw [if_pos hc]
      simp only [Option.some.injEq, exists_eq', true_iff]
      exact hc
    · rw [if_neg hc]
      constructor
      · rintro ⟨out, hout⟩
        cases hout
      · intro h
        exact absurd h hc
  · rintro out (hout | hout)
    · unfold ByteSource.slice at hout
      by_cases hc : a ≤ b ∧ b ≤ s.length
      · rw [if_pos hc, Option.some.injEq] at hout
        subst hout
        exact take_drop_content s a b hc.1 hc.2
      · rw [if_neg hc] at hout
        cases hout
    · by_cases hc : a ≤ b ∧ StrSource.is_char_boundary s a = true ∧
          StrSource.is_char_boundary s b = true
      · unfold StrSource.slice at hout
        rw [if_pos hc, Option.some.injEq] at hout
        subst hout
        exact take_drop_content s a b hc.1 (is_char_boundary_le hc.2.2)
      · unfold StrSource.slice at hout
        rw [if_neg hc] at hout
        cases hout

/-! ### C9: text slicing demands boundaries -/

/-- **C9.** For the UTF-8 text source, `slice(a..b)` returns a sub-slice
exactly when `a ≤ b ≤ len` and both `a` and `b` lie on character
boundaries; concretely, the in-bounds range `[0, 1)` into the two-byte
code point `[195, 169]` yields `none`. -/
theorem str_slice_boundary_spec (s : List Nat) (a b : Nat) :
    ((∃ out, StrSource.slice s a b = some out) ↔
      (a ≤ b ∧ b ≤ s.length ∧ StrSource.is_char_boundary s a = true ∧
        StrSource.is_char_boundary s b = true)) ∧
    StrSource.slice [195, 169] 0 1 = none :=
  ⟨str_slice_some_iff s a b, by decide⟩

/-! ### C6: unchecked slicing -/

/-- **C6.** Under the precondition `a ≤ b ≤ len`, `slice_unchecked(a..b)`
on either source returns the sub-slice whose bytes are exactly the source
bytes at indices `a` through `b - 1`. (Outside the precondition the Rust
operation is undefined behaviour, which has no counterpart in this
embedding; only the defined behaviour is verified.) -/
theorem slice_unchecked_spec (s : List Nat) (a b : Nat) (hab : a ≤ b)
    (hb : b ≤ s.length) :
    StrSource.slice_unchecked s a b = ByteSource.slice_unchecked s a b ∧
    (StrSource.slice_unchecked s a b).length = b - a ∧
    ∀ j, j < b - a → (StrSource.slice_unchecked s a b)[j]? = s[a + j]? := by
  obtain ⟨h1, h2⟩ := take_drop_content s a b hab hb
  exact ⟨rfl, h1, h2⟩

/-- **C6 witness** at source `[1, 2, 3]`, range `[1, 3)`. -/
theorem slice_unchecked_spec_witness :
    StrSource.slice_unchecked [1, 2, 3] 1 3 = ByteSource.slice_unchecked [1, 2, 3] 1 3 ∧
    (StrSource.slice_unchecked [1, 2, 3] 1 3).length = 3 - 1 ∧
    ∀ j, j < 3 - 1 →
      (StrSource.slice_unchecked ([1, 2, 3] : List Nat) 1 3)[j]? = ([1, 2, 3] : List Nat)[1 + j]? :=
  slice_unchecked_spec [1, 2, 3] 1 3 (by omega) (by simp)

/-! ### C7: the provided chunk implementations -/

/-- **C7.** The chunk abstraction is provided for `u8` with `SIZE = 1` and
for byte-array references of every length `n` from 1 through 16 with
`SIZE = n`; `SIZE` depends only on the chunk type, and chunk equality is
byte-wise. -/
theorem chunk_impls_spec :
    (ChunkKind.u8.provided = true ∧ ChunkKind.u8.SIZE = 1) ∧
    (∀ n, 1 ≤ n → n ≤ 16 →
      (ChunkKind.array n).provided = true ∧ (ChunkKind.array n).SIZE = n) ∧
    (∀ (k : ChunkKind) (v w : k.Value), v = w ↔ k.toBytes v = k.toBytes w) := by
  refine ⟨⟨rfl, rfl⟩, ?_, ?_⟩
  · intro n h1 h16
    exact ⟨by simp [ChunkKind.provided, h1, h16], rfl⟩
  · intro k v w
    cases k with
    | u8 => simp [ChunkKind.toBytes]
    | array n => simp [ChunkKind.toBytes]

end Logos
